import Mathlib

/-!
Verification development for the ColorPaletteTransfer repository.

The repository's core (`src/lib.rs`, duplicated in `src/main.rs`) builds a
convex hull from a color palette and maps every pixel of an image to the
closest point of that hull.  We give a shallow embedding:

* hex decoding (`palette::Srgb::from_str`) and the construction
  `ColorPaletteSpace::new` are embedded as executable functions;
* the geometric query `parry3d::query::closest_points` between the convex
  hull (at the identity isometry) and a zero-radius ball placed at the query
  point is embedded relationally over exact real arithmetic
  (`ClosestPointsRel`): `Intersecting` holds exactly when the query point
  lies in the (closed) convex hull of the palette points, `WithinMargin p`
  holds when the query is outside the hull and `p` is the closest hull point
  within the search margin, and `Disjoint` when every hull point is farther
  than the margin.  The source's f32/f64 arithmetic is idealised as exact
  real arithmetic; uniqueness of the closest point (proved below) makes the
  relation deterministic, so it is a faithful functional model.
* `get_color` (cache lookup, geometric query, truncating `as u8` casts,
  cache insertion) is embedded as the relation `GetColor` on explicit cache
  states; the `panic!()` on the `Disjoint` arm is modelled by the absence of
  a result (`closestToColor` returns `none`).
-/

namespace ColorPaletteTransfer

/-- An RGB triple as produced by the Rust code's `[u8; 3]`; channels are
natural numbers, with `validRGB` capturing the `u8` range. -/
abbrev RGB : Type := ℕ × ℕ × ℕ

/-- The `u8` range constraint on each channel of an RGB triple. -/
def validRGB (c : RGB) : Prop := c.1 ≤ 255 ∧ c.2.1 ≤ 255 ∧ c.2.2 ≤ 255

instance : DecidablePred validRGB := fun c => by unfold validRGB; infer_instance

/-- A point of 3-dimensional color space (the source uses
`parry3d::math::Point<f32>`; we idealise floating point as `ℝ`). -/
abbrev Pt : Type := ℝ × ℝ × ℝ

/-- Embedding of `Point::new(c.red as f32, c.green as f32, c.blue as f32)`:
cast the integer channels of an RGB triple to real coordinates. -/
def toPt (c : RGB) : Pt := ((c.1 : ℝ), (c.2.1 : ℝ), (c.2.2 : ℝ))

/-- Euclidean dot product on `Pt`. -/
def dot (p q : Pt) : ℝ := p.1 * q.1 + p.2.1 * q.2.1 + p.2.2 * q.2.2

/-- Squared Euclidean distance on `Pt`. -/
def distSq (p q : Pt) : ℝ :=
  (p.1 - q.1) ^ 2 + (p.2.1 - q.2.1) ^ 2 + (p.2.2 - q.2.2) ^ 2

/-- Membership in the convex hull of the palette points: the convex region
built by `ConvexPolyhedron::from_convex_hull(&color_points)`.  A point is in
the hull iff it is a convex combination of the palette points. -/
def inHull (pts : List RGB) (p : Pt) : Prop :=
  ∃ w : Fin pts.length → ℝ,
    (∀ i, 0 ≤ w i) ∧ (∑ i, w i) = 1 ∧ (∑ i, w i • toPt (pts.get i)) = p

/-- `p` is a closest point of the hull of `pts` to the query `q`. -/
def IsProj (pts : List RGB) (q p : Pt) : Prop :=
  inHull pts p ∧ ∀ z, inHull pts z → distSq q p ≤ distSq q z

/-- The search margin `99999f32` passed to `closest_points` in
`get_color`. -/
def margin : ℝ := 99999

/-- Embedding of the Rust saturating-truncating cast `f: f32 as u8` applied
to each coordinate in `new.coords.data.0[0].map(|i| i as u8)`: negative
values clamp to 0 (via `Int.toNat`), values above 255 clamp to 255, and the
fractional part is discarded (truncation toward zero). -/
noncomputable def toU8 (x : ℝ) : ℕ := min 255 (Int.toNat ⌊x⌋)

/-- `toPt`-inverse direction of the `WithinMargin` arm: truncate each
coordinate of the closest hull point back to a `u8` triple. -/
noncomputable def truncPt (p : Pt) : RGB := (toU8 p.1, toU8 p.2.1, toU8 p.2.2)

/-- Modelled from the spec: the alternative integer conversion the spec
contrasts with the source's truncation — rounding to nearest (used only to
state that the source does *not* round). -/
noncomputable def roundU8 (x : ℝ) : ℕ := min 255 (Int.toNat ⌊x + 1 / 2⌋)

/-! ## Hex decoding (`palette::Srgb::from_str`)

The `palette` crate's `FromStr` implementation for `Rgb<S, u8>` strips an
optional leading `#`, then parses either six hex digits (two per channel,
via `u8::from_str_radix(_, 16)`) or three hex digits (each duplicated, so
digit `d` yields channel `d * 17`); any other length is a format error and a
non-hex digit is an integer-parsing error. -/

/-- Embedding of `palette::rgb::FromHexError` (the variants relevant to
string inputs). -/
inductive FromHexError : Type where
  | ParseIntError : FromHexError
  | HexFormatError : FromHexError
deriving DecidableEq

/-- Value of a single hexadecimal digit, if the character is one. -/
def hexDigit (c : Char) : Option ℕ :=
  let n := c.toNat
  if 48 ≤ n ∧ n ≤ 57 then some (n - 48)
  else if 97 ≤ n ∧ n ≤ 102 then some (n - 87)
  else if 65 ≤ n ∧ n ≤ 70 then some (n - 55)
  else none

/-- Two hex digits parsed as one `u8` channel
(`u8::from_str_radix(&hex[i..i+2], 16)`). -/
def hexPair (a b : Char) : Except FromHexError ℕ :=
  match hexDigit a, hexDigit b with
  | some x, some y => .ok (16 * x + y)
  | _, _ => .error .ParseIntError

/-- One hex digit duplicated into a channel (short `#RGB` form). -/
def hexSingle (a : Char) : Except FromHexError ℕ :=
  match hexDigit a with
  | some x => .ok (17 * x)
  | none => .error .ParseIntError

/-- Digit decoding of `Srgb::from_str` after the optional `#` has been
stripped: six or three hex digits make an RGB triple. -/
def parseHexList (cs : List Char) : Except FromHexError RGB :=
  match cs with
  | [a, b, c, d, e, f] =>
    match hexPair a b with
    | .error e' => .error e'
    | .ok r =>
      match hexPair c d with
      | .error e' => .error e'
      | .ok g =>
        match hexPair e f with
        | .error e' => .error e'
        | .ok bl => .ok (r, g, bl)
  | [a, b, c] =>
    match hexSingle a with
    | .error e' => .error e'
    | .ok r =>
      match hexSingle b with
      | .error e' => .error e'
      | .ok g =>
        match hexSingle c with
        | .error e' => .error e'
        | .ok bl => .ok (r, g, bl)
  | _ => .error .HexFormatError

/-- Embedding of `Srgb::from_str`: strip an optional leading `#`, then
decode six or three hex digits. -/
def parseHex (s : String) : Except FromHexError RGB :=
  parseHexList
    (match s.toList with
     | '#' :: rest => rest
     | l => l)

/-- Embedding of the parsing loop in `ColorPaletteSpace::new`: parse every
palette entry in order, stopping at the first failure (the `?` operator). -/
def parseList : List String → Except FromHexError (List RGB)
  | [] => .ok []
  | s :: rest =>
    match parseHex s with
    | .error e => .error e
    | .ok c =>
      match parseList rest with
      | .error e => .error e
      | .ok cs => .ok (c :: cs)

/-! ## Hull construction (`ConvexPolyhedron::from_convex_hull`) -/

/-- Integer difference of two RGB triples, as a vector in `ℤ³`. -/
def subZ (c c₀ : RGB) : ℤ × ℤ × ℤ :=
  ((c.1 : ℤ) - (c₀.1 : ℤ), (c.2.1 : ℤ) - (c₀.2.1 : ℤ), (c.2.2 : ℤ) - (c₀.2.2 : ℤ))

/-- 3×3 determinant of three integer vectors. -/
def detZ (u v w : ℤ × ℤ × ℤ) : ℤ :=
  u.1 * (v.2.1 * w.2.2 - v.2.2 * w.2.1)
  - u.2.1 * (v.1 * w.2.2 - v.2.2 * w.1)
  + u.2.2 * (v.1 * w.2.1 - v.2.1 * w.1)

/-- All ordered pairs (in list order) of elements of a list. -/
def pairsList : List α → List (α × α)
  | [] => []
  | x :: xs => (xs.map fun y => (x, y)) ++ pairsList xs

/-- All ordered triples (in list order) of elements of a list. -/
def triplesList : List α → List (α × α × α)
  | [] => []
  | x :: xs => ((pairsList xs).map fun p => (x, p.1, p.2)) ++ triplesList xs

/-- Degeneracy test for hull construction: the palette points are all
coplanar iff every triple of difference vectors from the first point has
zero determinant (in particular any palette with fewer than four points is
degenerate).  `ConvexPolyhedron::from_convex_hull` returns `None` exactly
when the input points do not span a positive-volume solid; this decidable
test embeds that failure condition over the integer palette points. -/
def degenerate (l : List RGB) : Bool :=
  match l with
  | [] => true
  | c₀ :: rest =>
    let vs := rest.map fun c => subZ c c₀
    (triplesList vs).all fun t => detZ t.1 t.2.1 t.2.2 == 0

/-- Coplanarity of the palette points over ℝ: some nonzero normal vector
gives every point the same offset. -/
def Coplanar (pts : List RGB) : Prop :=
  ∃ n : Pt, n ≠ 0 ∧ ∃ b : ℝ, ∀ c ∈ pts, dot n (toPt c) = b

/-- Real 3×3 determinant, for relating the integer degeneracy test to
coplanarity over ℝ. -/
def detR (u v w : Pt) : ℝ :=
  u.1 * (v.2.1 * w.2.2 - v.2.2 * w.2.1)
  - u.2.1 * (v.1 * w.2.2 - v.2.2 * w.1)
  + u.2.2 * (v.1 * w.2.1 - v.2.1 * w.1)

/-- Cast an integer vector to a real point. -/
def castZ (u : ℤ × ℤ × ℤ) : Pt := ((u.1 : ℝ), (u.2.1 : ℝ), (u.2.2 : ℝ))

/-! ## `ColorPaletteSpace` and `get_color` -/

/-- Embedding of `TransferError`; the payloads of `IoError` and `ImgError`
(image/file errors, never produced by the embedded core) are dropped. -/
inductive TransferError : Type where
  | IoError : TransferError
  | ImgError : TransferError
  | HexError : FromHexError → TransferError
  | ConvexHullError : TransferError
deriving DecidableEq

/-- Embedding of `ColorPaletteSpace`.  The `ConvexPolyhedron` field is
represented by the palette points that generate it (the hull is their convex
hull); `zero_ball` and `zero_iso` carry no data (radius-0 ball, identity
isometry) and are omitted; the `CHashMap` cache is an association list where
insertion prepends and lookup takes the first match. -/
structure ColorPaletteSpace : Type where
  points : List RGB
  cache : List (RGB × RGB)
deriving DecidableEq

/-- Embedding of `CHashMap::get`. -/
def cacheLookup : List (RGB × RGB) → RGB → Option RGB
  | [], _ => none
  | (k, v) :: rest, q => if k = q then some v else cacheLookup rest q

/-- Embedding of `ColorPaletteSpace::new`: decode every hex entry (first
failure wrapped in `HexError`), then build the convex hull, failing with
`ConvexHullError` when the points are degenerate; on success the cache
starts empty. -/
def new (palette : List String) : Except TransferError ColorPaletteSpace :=
  match parseList palette with
  | .error e => .error (.HexError e)
  | .ok pts =>
    if degenerate pts then .error .ConvexHullError
    else .ok ⟨pts, []⟩

/-- Embedding of `parry3d::query::ClosestPoints`.  The source only uses the
first (hull-side) point of the `WithinMargin` payload, so only it is kept. -/
inductive ClosestPoints : Type where
  | Intersecting : ClosestPoints
  | WithinMargin : Pt → ClosestPoints
  | Disjoint : ClosestPoints

/-- Relational embedding of
`closest_points(&zero_iso, &colorspace, &point, &zero_ball, margin)` where
`point` is the translation to the query point and `zero_ball` has radius 0:
the query intersects the (closed) hull iff it lies in the hull; otherwise
the result carries the closest hull point when it is within the margin, and
`Disjoint` when every hull point is farther than the margin. -/
def ClosestPointsRel (pts : List RGB) (q : Pt) (m : ℝ) : ClosestPoints → Prop
  | .Intersecting => inHull pts q
  | .WithinMargin p => ¬ inHull pts q ∧ IsProj pts q p ∧ distSq q p ≤ m ^ 2
  | .Disjoint => ¬ inHull pts q ∧ ∀ z, inHull pts z → m ^ 2 < distSq q z

/-- The `match` arms of `get_color` on the query result: `Intersecting`
returns the query unchanged, `WithinMargin` truncates the closest hull
point's coordinates, and `Disjoint` is `panic!()` — modelled as `none`. -/
noncomputable def closestToColor (q : RGB) : ClosestPoints → Option RGB
  | .Intersecting => some q
  | .WithinMargin p => some (truncPt p)
  | .Disjoint => none

/-- Relational embedding of `ColorPaletteSpace::get_color`: either the query
is in the cache (returned unchanged, state untouched), or the geometric
query is performed, its result converted by `closestToColor`, and the new
color inserted into the cache.  A `panic!()` (the `Disjoint` arm) admits no
derivation. -/
inductive GetColor (s : ColorPaletteSpace) (q : RGB) : RGB → ColorPaletteSpace → Prop where
  | hit (v : RGB) (h : cacheLookup s.cache q = some v) : GetColor s q v s
  | miss (res : ClosestPoints) (out : RGB)
      (hnone : cacheLookup s.cache q = none)
      (hres : ClosestPointsRel s.points (toPt q) margin res)
      (hout : closestToColor q res = some out) :
      GetColor s q out ⟨s.points, (q, out) :: s.cache⟩

/-- The pure value of the nearest-point resolver on a query, independent of
the cache: the query itself when inside the hull, otherwise the truncation
of the (unique) closest hull point, provided it is within the margin. -/
def ResolveRel (pts : List RGB) (q out : RGB) : Prop :=
  (inHull pts (toPt q) ∧ out = q) ∨
  (¬ inHull pts (toPt q) ∧
    ∃ p, IsProj pts (toPt q) p ∧ distSq (toPt q) p ≤ margin ^ 2 ∧ out = truncPt p)

/-- Cache invariant: every cached value is the resolver's value for its
key.  It holds for the empty cache produced by `new` and is preserved by
`get_color`. -/
def CacheOK (s : ColorPaletteSpace) : Prop :=
  ∀ k v, cacheLookup s.cache k = some v → ResolveRel s.points k v

/-- Embedding of the pixel-mapping loop in `main`: pixels are processed in
order, threading the shared cache; output pixel `i` is `get_color` of input
pixel `i`. -/
inductive MapImage : ColorPaletteSpace → List RGB → List RGB → ColorPaletteSpace → Prop where
  | nil (s : ColorPaletteSpace) : MapImage s [] [] s
  | cons {s s₁ s₂ : ColorPaletteSpace} {q o : RGB} {qs os : List RGB}
      (h : GetColor s q o s₁) (hrest : MapImage s₁ qs os s₂) :
      MapImage s (q :: qs) (o :: os) s₂

/-- One parallel run over a partition of the pixels into chunks: each chunk
is processed by some worker from some cache state over the same palette
points, with the cache invariant holding. -/
def ChunkedRun (pts : List RGB) (chunks outs : List (List RGB)) : Prop :=
  List.Forall₂
    (fun c o => ∃ t t', CacheOK t ∧ t.points = pts ∧ MapImage t c o t')
    chunks outs

instance {ε α : Type} [DecidableEq ε] [DecidableEq α] : DecidableEq (Except ε α) :=
  fun a b =>
  match a, b with
  | .error e, .error f =>
    if h : e = f then .isTrue (by rw [h]) else .isFalse (fun hh => h (by cases hh; rfl))
  | .error _, .ok _ => .isFalse (fun hh => by cases hh)
  | .ok _, .error _ => .isFalse (fun hh => by cases hh)
  | .ok x, .ok y =>
    if h : x = y then .isTrue (by rw [h]) else .isFalse (fun hh => h (by cases hh; rfl))

/-- The NORD palette constant from `lib.rs`. -/
def NORD : List String :=
  ["#2E3440", "#3B4252", "#434C5E", "#4C566A", "#D8DEE9", "#E5E9F0",
   "#ECEFF4", "#8FBCBB", "#88C0D0", "#81A1C1", "#5E81AC", "#BF616A",
   "#D08770", "#EBCB8B", "#A3BE8C", "#B48EAD"]

/-- The decoded NORD palette points. -/
def nordPts : List RGB :=
  [(46, 52, 64), (59, 66, 82), (67, 76, 94), (76, 86, 106), (216, 222, 233),
   (229, 233, 240), (236, 239, 244), (143, 188, 187), (136, 192, 208),
   (129, 161, 193), (94, 129, 172), (191, 97, 106), (208, 135, 112),
   (235, 203, 139), (163, 190, 140), (180, 142, 173)]

/-- The palette space built from the NORD palette (empty cache). -/
def nordSpace : ColorPaletteSpace := ⟨nordPts, []⟩

/-- A six-color palette (a triangular prism in RGB space) used as a concrete
test palette: the prism over the triangle `(0,1)`, `(2,0)`, `(10,10)` in the
red/green plane, extruded from blue 0 to blue 10. -/
def ex6Hex : List String :=
  ["#000100", "#020000", "#0A0A00", "#00010A", "#02000A", "#0A0A0A"]

/-- The decoded points of `ex6Hex`. -/
def ex6Pts : List RGB :=
  [(0, 1, 0), (2, 0, 0), (10, 10, 0), (0, 1, 10), (2, 0, 10), (10, 10, 10)]

/-- The palette space built from `ex6Hex` (empty cache). -/
def ex6Space : ColorPaletteSpace := ⟨ex6Pts, []⟩

/-- `ex6Space` after resolving the query `(4,1,5)`. -/
def ex6Space1 : ColorPaletteSpace := ⟨ex6Pts, [((4, 1, 5), (3, 1, 5))]⟩

/-- `ex6Space1` after resolving the query `(3,1,5)`. -/
def ex6Space2 : ColorPaletteSpace :=
  ⟨ex6Pts, [((3, 1, 5), (2, 1, 5)), ((4, 1, 5), (3, 1, 5))]⟩

/-! ## Geometric facts about the hull and the closest-point query -/

theorem distSq_nonneg (p q : Pt) : 0 ≤ distSq p q := by
  unfold distSq; positivity

theorem distSq_eq_zero (p q : Pt) (h : distSq p q = 0) : p = q := by
  obtain ⟨a, b, c⟩ := p
  obtain ⟨d, e, f⟩ := q
  simp only [distSq] at h
  have h1 : (a - d) ^ 2 = 0 := by nlinarith [sq_nonneg (a - d), sq_nonneg (b - e), sq_nonneg (c - f)]
  have h2 : (b - e) ^ 2 = 0 := by nlinarith [sq_nonneg (a - d), sq_nonneg (b - e), sq_nonneg (c - f)]
  have h3 : (c - f) ^ 2 = 0 := by nlinarith [sq_nonneg (a - d), sq_nonneg (b - e), sq_nonneg (c - f)]
  have e1 : a = d := by nlinarith [h1]
  have e2 : b = e := by nlinarith [h2]
  have e3 : c = f := by nlinarith [h3]
  simp [e1, e2, e3]

theorem dot_add_right (a b c : Pt) : dot a (b + c) = dot a b + dot a c := by
  simp only [dot, Prod.fst_add, Prod.snd_add]; ring

theorem dot_smul_right (a : Pt) (r : ℝ) (b : Pt) : dot a (r • b) = r * dot a b := by
  simp only [dot, Prod.smul_fst, Prod.smul_snd, smul_eq_mul]; ring

theorem dot_zero_right (a : Pt) : dot a 0 = 0 := by
  simp [dot]

theorem dot_sum_right {ι : Type} (a : Pt) (s : Finset ι) (f : ι → Pt) :
    dot a (∑ i ∈ s, f i) = ∑ i ∈ s, dot a (f i) := by
  classical
  induction s using Finset.induction_on with
  | empty => simp [dot_zero_right]
  | insert hx ih => rw [Finset.sum_insert hx, Finset.sum_insert hx, dot_add_right, ih]

theorem sum_smul_sub {n : ℕ} (w : Fin n → ℝ) (v : Fin n → Pt) (p : Pt)
    (hw : (∑ i, w i) = 1) :
    (∑ i, w i • v i) - p = ∑ i, w i • (v i - p) := by
  have : (∑ i, w i • (v i - p)) = (∑ i, w i • v i) - (∑ i, w i • p) := by
    simp [smul_sub, Finset.sum_sub_distrib]
  rw [this, ← Finset.sum_smul, hw, one_smul]

/-- Every palette point is in the hull. -/
theorem inHull_get (pts : List RGB) (i : Fin pts.length) :
    inHull pts (toPt (pts.get i)) := by
  refine ⟨fun j => if j = i then 1 else 0, ?_, ?_, ?_⟩
  · intro j; dsimp only; split <;> norm_num
  · simp
  · simp [ite_smul]

theorem inHull_mem (pts : List RGB) (c : RGB) (h : c ∈ pts) : inHull pts (toPt c) := by
  obtain ⟨i, hi⟩ := List.mem_iff_get.mp h
  exact hi ▸ inHull_get pts i

/-- A separating functional certifies non-membership in the hull. -/
theorem not_inHull_of_sep (pts : List RGB) (q nv : Pt) (b : ℝ)
    (hpts : ∀ c ∈ pts, dot nv (toPt c) ≤ b) (hq : b < dot nv q) : ¬ inHull pts q := by
  rintro ⟨w, hw0, hw1, hwq⟩
  have hexp : dot nv q = ∑ i, w i * dot nv (toPt (pts.get i)) := by
    rw [← hwq, dot_sum_right]
    exact Finset.sum_congr rfl fun i _ => dot_smul_right _ _ _
  have hle : dot nv q ≤ b := by
    rw [hexp]
    calc (∑ i, w i * dot nv (toPt (pts.get i)))
        ≤ ∑ i : Fin pts.length, w i * b := by
          refine Finset.sum_le_sum fun i _ => ?_
          exact mul_le_mul_of_nonneg_left (hpts _ (List.get_mem pts i.1 i.2)) (hw0 i)
      _ = b := by rw [← Finset.sum_mul, hw1, one_mul]
  linarith

theorem distSq_expand (q p z : Pt) :
    distSq q z = distSq q p + distSq p z - 2 * dot (q - p) (z - p) := by
  obtain ⟨a, b, c⟩ := q; obtain ⟨d, e, f⟩ := p; obtain ⟨x, y, w⟩ := z
  simp only [distSq, dot, Prod.mk_sub_mk, Prod.fst_sub, Prod.snd_sub]
  ring

/-- KKT-style certificate: a hull point whose displacement to the query is a
supporting direction (nonpositive dot product with every vertex direction)
is a closest point of the hull. -/
theorem isProj_of_cert (pts : List RGB) (q p : Pt) (hp : inHull pts p)
    (hc : ∀ c ∈ pts, dot (q - p) (toPt c - p) ≤ 0) : IsProj pts q p := by
  refine ⟨hp, ?_⟩
  rintro z ⟨w, hw0, hw1, hwz⟩
  have hzp : z - p = ∑ i, w i • (toPt (pts.get i) - p) := by
    rw [← hwz]; exact sum_smul_sub w _ p hw1
  have hdot : dot (q - p) (z - p) ≤ 0 := by
    rw [hzp, dot_sum_right]
    refine Finset.sum_nonpos fun i _ => ?_
    rw [dot_smul_right]
    exact mul_nonpos_of_nonneg_of_nonpos (hw0 i) (hc _ (List.get_mem pts i.1 i.2))
  have hexp := distSq_expand q p z
  have hnn := distSq_nonneg p z
  linarith

/-- Midpoints of hull points are in the hull. -/
theorem inHull_midpoint (pts : List RGB) (p₁ p₂ : Pt)
    (h₁ : inHull pts p₁) (h₂ : inHull pts p₂) :
    inHull pts ((1 / 2 : ℝ) • (p₁ + p₂)) := by
  obtain ⟨w₁, hw₁0, hw₁1, hw₁p⟩ := h₁
  obtain ⟨w₂, hw₂0, hw₂1, hw₂p⟩ := h₂
  refine ⟨fun i => (w₁ i + w₂ i) / 2, ?_, ?_, ?_⟩
  · intro i
    have := hw₁0 i; have := hw₂0 i
    linarith
  · have : (∑ i, (w₁ i + w₂ i) / 2) = (∑ i, w₁ i) / 2 + (∑ i, w₂ i) / 2 := by
      rw [← Finset.sum_div, Finset.sum_add_distrib, add_div]
    rw [this, hw₁1, hw₂1]; norm_num
  · have hterm : ∀ i : Fin pts.length,
        ((w₁ i + w₂ i) / 2) • toPt (pts.get i) =
          (1 / 2 : ℝ) • (w₁ i • toPt (pts.get i)) + (1 / 2 : ℝ) • (w₂ i • toPt (pts.get i)) := by
      intro i
      have h : (w₁ i + w₂ i) / 2 = (1 / 2) * w₁ i + (1 / 2) * w₂ i := by ring
      rw [h, add_smul, mul_smul, mul_smul]
    calc (∑ i, ((w₁ i + w₂ i) / 2) • toPt (pts.get i))
        = ∑ i, ((1 / 2 : ℝ) • (w₁ i • toPt (pts.get i)) + (1 / 2 : ℝ) • (w₂ i • toPt (pts.get i))) :=
          Finset.sum_congr rfl fun i _ => hterm i
      _ = (1 / 2 : ℝ) • (∑ i, w₁ i • toPt (pts.get i)) + (1 / 2 : ℝ) • (∑ i, w₂ i • toPt (pts.get i)) := by
          rw [Finset.sum_add_distrib, Finset.smul_sum, Finset.smul_sum]
      _ = (1 / 2 : ℝ) • (p₁ + p₂) := by rw [hw₁p, hw₂p, smul_add]

theorem distSq_midpoint (q p₁ p₂ : Pt) :
    distSq q ((1 / 2 : ℝ) • (p₁ + p₂)) =
      distSq q p₁ / 2 + distSq q p₂ / 2 - distSq p₁ p₂ / 4 := by
  obtain ⟨a, b, c⟩ := q; obtain ⟨d, e, f⟩ := p₁; obtain ⟨x, y, w⟩ := p₂
  simp only [distSq, Prod.mk_add_mk, Prod.smul_mk, smul_eq_mul]
  ring

/-- The closest point of the hull to a query is unique. -/
theorem isProj_unique (pts : List RGB) (q p₁ p₂ : Pt)
    (h₁ : IsProj pts q p₁) (h₂ : IsProj pts q p₂) : p₁ = p₂ := by
  have hm := inHull_midpoint pts p₁ p₂ h₁.1 h₂.1
  have e₁ := h₁.2 _ hm
  have h12 : distSq q p₁ = distSq q p₂ := le_antisymm (h₁.2 _ h₂.1) (h₂.2 _ h₁.1)
  have hmid := distSq_midpoint q p₁ p₂
  have hz : distSq p₁ p₂ ≤ 0 := by linarith
  exact distSq_eq_zero p₁ p₂ (le_antisymm hz (distSq_nonneg p₁ p₂))

/-- Existence of a closest hull point, for a nonempty palette: the hull is
the continuous image of the compact standard simplex, and squared distance
is continuous. -/
theorem exists_isProj (pts : List RGB) (hne : pts ≠ []) (q : Pt) :
    ∃ p, IsProj pts q p := by
  have himg : {p : Pt | inHull pts p} =
      (fun w : Fin pts.length → ℝ => ∑ i, w i • toPt (pts.get i)) ''
        stdSimplex ℝ (Fin pts.length) := by
    ext p
    constructor
    · rintro ⟨w, hw0, hw1, hwp⟩; exact ⟨w, ⟨hw0, hw1⟩, hwp⟩
    · rintro ⟨w, ⟨hw0, hw1⟩, hwp⟩; exact ⟨w, hw0, hw1, hwp⟩
  have hcont : Continuous fun w : Fin pts.length → ℝ => ∑ i, w i • toPt (pts.get i) := by
    refine continuous_finset_sum _ fun i _ => ?_
    exact (continuous_apply i).smul continuous_const
  have hcomp : IsCompact {p : Pt | inHull pts p} := by
    rw [himg]
    exact (isCompact_stdSimplex _).image hcont
  have hnon : Set.Nonempty {p : Pt | inHull pts p} := by
    have hlen : 0 < pts.length := List.length_pos.mpr hne
    exact ⟨toPt (pts.get ⟨0, hlen⟩), inHull_get pts ⟨0, hlen⟩⟩
  have hdc : ContinuousOn (fun z : Pt => distSq q z) {p : Pt | inHull pts p} := by
    refine Continuous.continuousOn ?_
    unfold distSq
    exact (((continuous_const.sub continuous_fst).pow 2).add
      ((continuous_const.sub continuous_snd.fst).pow 2)).add
      ((continuous_const.sub continuous_snd.snd).pow 2)
  obtain ⟨p, hp, hmin⟩ := hcomp.exists_isMinOn hnon hdc
  exact ⟨p, hp, fun z hz => hmin hz⟩

/-- Convex combinations stay in the `[0, 255]` box when the palette does. -/
theorem inHull_box (pts : List RGB) (hv : ∀ c ∈ pts, validRGB c) (p : Pt)
    (hp : inHull pts p) :
    (0 ≤ p.1 ∧ p.1 ≤ 255) ∧ (0 ≤ p.2.1 ∧ p.2.1 ≤ 255) ∧ (0 ≤ p.2.2 ∧ p.2.2 ≤ 255) := by
  obtain ⟨w, hw0, hw1, hwp⟩ := hp
  have hfst : p.1 = ∑ i, w i * (toPt (pts.get i)).1 := by
    rw [← hwp, Prod.fst_sum]
    exact Finset.sum_congr rfl fun i _ => by simp [Prod.smul_fst]
  have hsndfst : p.2.1 = ∑ i, w i * (toPt (pts.get i)).2.1 := by
    rw [← hwp, Prod.snd_sum, Prod.fst_sum]
    exact Finset.sum_congr rfl fun i _ => by simp [Prod.smul_fst, Prod.smul_snd]
  have hsndsnd : p.2.2 = ∑ i, w i * (toPt (pts.get i)).2.2 := by
    rw [← hwp, Prod.snd_sum, Prod.snd_sum]
    exact Finset.sum_congr rfl fun i _ => by simp [Prod.smul_snd]
  have hchan : ∀ i : Fin pts.length,
      (0 ≤ (toPt (pts.get i)).1 ∧ (toPt (pts.get i)).1 ≤ 255) ∧
      (0 ≤ (toPt (pts.get i)).2.1 ∧ (toPt (pts.get i)).2.1 ≤ 255) ∧
      (0 ≤ (toPt (pts.get i)).2.2 ∧ (toPt (pts.get i)).2.2 ≤ 255) := by
    intro i
    have hvi := hv _ (List.get_mem pts i.1 i.2)
    obtain ⟨h1, h2, h3⟩ := hvi
    simp only [toPt]
    refine ⟨⟨by positivity, ?_⟩, ⟨by positivity, ?_⟩, ⟨by positivity, ?_⟩⟩ <;>
      exact_mod_cast Nat.cast_le.mpr (by assumption)
  have hbound : ∀ (g : Fin pts.length → ℝ),
      (∀ i, 0 ≤ g i ∧ g i ≤ 255) → 0 ≤ (∑ i, w i * g i) ∧ (∑ i, w i * g i) ≤ 255 := by
    intro g hg
    constructor
    · exact Finset.sum_nonneg fun i _ => mul_nonneg (hw0 i) (hg i).1
    · calc (∑ i, w i * g i) ≤ ∑ i : Fin pts.length, w i * 255 := by
            exact Finset.sum_le_sum fun i _ => mul_le_mul_of_nonneg_left (hg i).2 (hw0 i)
        _ = 255 := by rw [← Finset.sum_mul, hw1, one_mul]
  refine ⟨?_, ?_, ?_⟩
  · rw [hfst]; exact hbound _ fun i => ⟨(hchan i).1.1, (hchan i).1.2⟩
  · rw [hsndfst]; exact hbound _ fun i => ⟨(hchan i).2.1.1, (hchan i).2.1.2⟩
  · rw [hsndsnd]; exact hbound _ fun i => ⟨(hchan i).2.2.1, (hchan i).2.2.2⟩

/-- Any two points of the RGB cube are at squared distance at most
`3 * 255²`, far below the margin squared. -/
theorem distSq_box_le (a b : Pt)
    (ha : (0 ≤ a.1 ∧ a.1 ≤ 255) ∧ (0 ≤ a.2.1 ∧ a.2.1 ≤ 255) ∧ (0 ≤ a.2.2 ∧ a.2.2 ≤ 255))
    (hb : (0 ≤ b.1 ∧ b.1 ≤ 255) ∧ (0 ≤ b.2.1 ∧ b.2.1 ≤ 255) ∧ (0 ≤ b.2.2 ∧ b.2.2 ≤ 255)) :
    distSq a b ≤ 195075 := by
  obtain ⟨⟨ha1, ha2⟩, ⟨ha3, ha4⟩, ⟨ha5, ha6⟩⟩ := ha
  obtain ⟨⟨hb1, hb2⟩, ⟨hb3, hb4⟩, ⟨hb5, hb6⟩⟩ := hb
  unfold distSq
  nlinarith

/-! ## Structural lemmas: hex decoding and construction -/

theorem hexDigit_le (c : Char) (n : ℕ) (h : hexDigit c = some n) : n ≤ 15 := by
  simp only [hexDigit] at h
  split_ifs at h with h1 h2 h3 <;> simp_all <;> omega

theorem hexPair_le (a b : Char) (n : ℕ) (h : hexPair a b = .ok n) : n ≤ 255 := by
  unfold hexPair at h
  cases ha : hexDigit a with
  | none => rw [ha] at h; cases h
  | some x =>
    cases hb : hexDigit b with
    | none => rw [ha, hb] at h; cases h
    | some y =>
      rw [ha, hb] at h
      cases h
      have := hexDigit_le a x ha
      have := hexDigit_le b y hb
      omega

theorem hexSingle_le (a : Char) (n : ℕ) (h : hexSingle a = .ok n) : n ≤ 255 := by
  unfold hexSingle at h
  cases ha : hexDigit a with
  | none => rw [ha] at h; cases h
  | some x =>
    rw [ha] at h
    cases h
    have := hexDigit_le a x ha
    omega

theorem parseHexList_valid (cs : List Char) (c : RGB) (h : parseHexList cs = .ok c) :
    validRGB c := by
  unfold parseHexList at h
  split at h
  · split at h
    · cases h
    · split at h
      · cases h
      · split at h
        · cases h
        · cases h
          exact ⟨hexPair_le _ _ _ (by assumption), hexPair_le _ _ _ (by assumption),
            hexPair_le _ _ _ (by assumption)⟩
  · split at h
    · cases h
    · split at h
      · cases h
      · split at h
        · cases h
        · cases h
          exact ⟨hexSingle_le _ _ (by assumption), hexSingle_le _ _ (by assumption),
            hexSingle_le _ _ (by assumption)⟩
  · cases h

theorem parseHex_valid (s : String) (c : RGB) (h : parseHex s = .ok c) : validRGB c :=
  parseHexList_valid _ c h

theorem parseList_valid (l : List String) (pts : List RGB) (h : parseList l = .ok pts) :
    ∀ c ∈ pts, validRGB c := by
  induction l generalizing pts with
  | nil =>
    simp only [parseList] at h
    cases h
    intro c hc
    cases hc
  | cons s rest ih =>
    simp only [parseList] at h
    cases h1 : parseHex s with
    | error e => rw [h1] at h; cases h
    | ok c₀ =>
      rw [h1] at h
      cases h2 : parseList rest with
      | error e => rw [h2] at h; cases h
      | ok cs =>
        rw [h2] at h
        cases h
        intro c hc
        cases hc with
        | head => exact parseHex_valid s c₀ h1
        | tail _ hmem => exact ih cs h2 c hmem

theorem parseList_ok_all (l : List String) (pts : List RGB) (h : parseList l = .ok pts) :
    ∀ s ∈ l, ∃ r, parseHex s = .ok r := by
  induction l generalizing pts with
  | nil => intro s hs; cases hs
  | cons s rest ih =>
    simp only [parseList] at h
    cases h1 : parseHex s with
    | error e => rw [h1] at h; cases h
    | ok c₀ =>
      rw [h1] at h
      cases h2 : parseList rest with
      | error e => rw [h2] at h; cases h
      | ok cs =>
        intro x hx
        cases hx with
        | head => exact ⟨c₀, h1⟩
        | tail _ hmem => exact ih cs h2 x hmem

theorem parseList_first_error (pre : List String) (s : String) (post : List String)
    (e : FromHexError) (hpre : ∀ c ∈ pre, ∃ r, parseHex c = .ok r)
    (hs : parseHex s = .error e) :
    parseList (pre ++ s :: post) = .error e := by
  induction pre with
  | nil => simp [parseList, hs]
  | cons p ps ih =>
    obtain ⟨r, hr⟩ := hpre p (List.mem_cons_self p ps)
    have hrest := ih fun c hc => hpre c (List.mem_cons_of_mem p hc)
    simp [parseList, hr, hrest]

theorem new_hexError (l : List String) (e : FromHexError) (h : parseList l = .error e) :
    new l = .error (.HexError e) := by
  unfold new
  rw [h]

theorem new_ok_elim (l : List String) (s : ColorPaletteSpace) (h : new l = .ok s) :
    parseList l = .ok s.points ∧ degenerate s.points = false ∧ s.cache = [] := by
  cases h1 : parseList l with
  | error e => rw [new_hexError l e h1] at h; cases h
  | ok pts =>
    simp only [new, h1] at h
    cases hd : degenerate pts with
    | true => simp [hd] at h
    | false =>
      simp only [hd, Bool.false_eq_true, if_false] at h
      cases h
      exact ⟨rfl, hd, rfl⟩

/-! ## Structural lemmas: degeneracy of the hull -/

theorem mem_pairsList {α : Type} {l : List α} {p : α × α} (h : p ∈ pairsList l) :
    p.1 ∈ l ∧ p.2 ∈ l := by
  induction l with
  | nil => cases h
  | cons x xs ih =>
    simp only [pairsList, List.mem_append, List.mem_map] at h
    rcases h with ⟨y, hy, rfl⟩ | h
    · exact ⟨List.mem_cons_self _ _, List.mem_cons_of_mem _ hy⟩
    · exact ⟨List.mem_cons_of_mem _ (ih h).1, List.mem_cons_of_mem _ (ih h).2⟩

theorem mem_triplesList {α : Type} {l : List α} {t : α × α × α} (h : t ∈ triplesList l) :
    t.1 ∈ l ∧ t.2.1 ∈ l ∧ t.2.2 ∈ l := by
  induction l with
  | nil => cases h
  | cons x xs ih =>
    simp only [triplesList, List.mem_append, List.mem_map] at h
    rcases h with ⟨p, hp, rfl⟩ | h
    · have := mem_pairsList hp
      exact ⟨List.mem_cons_self _ _, List.mem_cons_of_mem _ this.1, List.mem_cons_of_mem _ this.2⟩
    · exact ⟨List.mem_cons_of_mem _ (ih h).1, List.mem_cons_of_mem _ (ih h).2.1,
        List.mem_cons_of_mem _ (ih h).2.2⟩

theorem triplesList_eq_nil {α : Type} {l : List α} (h : l.length ≤ 2) : triplesList l = [] := by
  match l with
  | [] => rfl
  | [a] => rfl
  | [a, b] => rfl
  | a :: b :: c :: rest => simp only [List.length_cons] at h; omega

theorem degenerate_of_short {pts : List RGB} (h : pts.length < 4) : degenerate pts = true := by
  match pts with
  | [] => rfl
  | c₀ :: rest =>
    have hdef : degenerate (c₀ :: rest) =
        (triplesList (rest.map fun c => subZ c c₀)).all fun t => detZ t.1 t.2.1 t.2.2 == 0 := rfl
    have hlen : (rest.map fun c => subZ c c₀).length ≤ 2 := by
      simp only [List.length_map]
      simp only [List.length_cons] at h
      omega
    rw [hdef, triplesList_eq_nil hlen]
    rfl

theorem length_of_not_degenerate {pts : List RGB} (h : degenerate pts = false) :
    4 ≤ pts.length := by
  by_contra hcon
  push_neg at hcon
  rw [degenerate_of_short hcon] at h
  cases h

theorem detZ_cast (u v w : ℤ × ℤ × ℤ) :
    ((detZ u v w : ℤ) : ℝ) = detR (castZ u) (castZ v) (castZ w) := by
  simp only [detZ, detR, castZ]
  push_cast
  ring

theorem castZ_subZ (c c₀ : RGB) : castZ (subZ c c₀) = toPt c - toPt c₀ := by
  simp only [castZ, subZ, toPt, Prod.mk_sub_mk]
  push_cast
  rfl

theorem dot_sub_right (a b c : Pt) : dot a (b - c) = dot a b - dot a c := by
  simp only [dot, Prod.fst_sub, Prod.snd_sub]
  ring

/-- Three vectors orthogonal to a common nonzero vector have zero
determinant. -/
theorem detR_zero_of_ortho (n u v w : Pt) (hn : n ≠ 0)
    (hu : dot n u = 0) (hv : dot n v = 0) (hw : dot n w = 0) : detR u v w = 0 := by
  obtain ⟨a, b, c⟩ := n
  obtain ⟨u1, u2, u3⟩ := u
  obtain ⟨v1, v2, v3⟩ := v
  obtain ⟨w1, w2, w3⟩ := w
  simp only [dot] at hu hv hw
  simp only [detR]
  have habc : a ≠ 0 ∨ b ≠ 0 ∨ c ≠ 0 := by
    by_contra hcon
    push_neg at hcon
    exact hn (by simp [Prod.ext_iff, hcon.1, hcon.2.1, hcon.2.2])
  rcases habc with ha | hb | hc
  · have key : a * (u1 * (v2 * w3 - v3 * w2) - u2 * (v1 * w3 - v3 * w1)
        + u3 * (v1 * w2 - v2 * w1)) = 0 := by
      linear_combination (v2 * w3 - v3 * w2) * hu - (u2 * w3 - u3 * w2) * hv
        + (u2 * v3 - u3 * v2) * hw
    exact (mul_eq_zero.mp key).resolve_left ha
  · have key : b * (u1 * (v2 * w3 - v3 * w2) - u2 * (v1 * w3 - v3 * w1)
        + u3 * (v1 * w2 - v2 * w1)) = 0 := by
      linear_combination (-(v1 * w3 - v3 * w1)) * hu + (u1 * w3 - u3 * w1) * hv
        - (u1 * v3 - u3 * v1) * hw
    exact (mul_eq_zero.mp key).resolve_left hb
  · have key : c * (u1 * (v2 * w3 - v3 * w2) - u2 * (v1 * w3 - v3 * w1)
        + u3 * (v1 * w2 - v2 * w1)) = 0 := by
      linear_combination (v1 * w2 - v2 * w1) * hu - (u1 * w2 - u2 * w1) * hv
        + (u1 * v2 - u2 * v1) * hw
    exact (mul_eq_zero.mp key).resolve_left hc

/-- A coplanar palette is rejected by the degeneracy test. -/
theorem degenerate_of_coplanar (pts : List RGB) (h : Coplanar pts) :
    degenerate pts = true := by
  match pts with
  | [] => rfl
  | c₀ :: rest =>
    obtain ⟨n, hn, b, hb⟩ := h
    have hdef : degenerate (c₀ :: rest) =
        (triplesList (rest.map fun c => subZ c c₀)).all fun t => detZ t.1 t.2.1 t.2.2 == 0 := rfl
    rw [hdef, List.all_eq_true]
    intro t ht
    have hmem := mem_triplesList ht
    have hvec : ∀ x ∈ rest.map fun c => subZ c c₀, ∃ c ∈ rest, subZ c c₀ = x := by
      intro x hx
      obtain ⟨c, hc, rfl⟩ := List.mem_map.mp hx
      exact ⟨c, hc, rfl⟩
    obtain ⟨c₁, hc₁, he₁⟩ := hvec _ hmem.1
    obtain ⟨c₂, hc₂, he₂⟩ := hvec _ hmem.2.1
    obtain ⟨c₃, hc₃, he₃⟩ := hvec _ hmem.2.2
    have hdotzero : ∀ c ∈ rest, dot n (toPt c - toPt c₀) = 0 := by
      intro c hc
      rw [dot_sub_right, hb c (List.mem_cons_of_mem _ hc), hb c₀ (List.mem_cons_self _ _)]
      ring
    have hdet : detR (castZ t.1) (castZ t.2.1) (castZ t.2.2) = 0 := by
      rw [← he₁, ← he₂, ← he₃, castZ_subZ, castZ_subZ, castZ_subZ]
      exact detR_zero_of_ortho n _ _ _ hn (hdotzero c₁ hc₁) (hdotzero c₂ hc₂) (hdotzero c₃ hc₃)
    have : ((detZ t.1 t.2.1 t.2.2 : ℤ) : ℝ) = 0 := by rw [detZ_cast]; exact hdet
    have hz : detZ t.1 t.2.1 t.2.2 = 0 := by exact_mod_cast this
    simp [hz]

/-! ## Structural lemmas: the cache and `get_color` -/

theorem cacheOK_new (l : List String) (s : ColorPaletteSpace) (h : new l = .ok s) :
    CacheOK s := by
  obtain ⟨_, _, hc⟩ := new_ok_elim l s h
  intro k v hkv
  rw [hc] at hkv
  cases hkv

theorem resolveRel_det (pts : List RGB) (q o₁ o₂ : RGB)
    (h₁ : ResolveRel pts q o₁) (h₂ : ResolveRel pts q o₂) : o₁ = o₂ := by
  rcases h₁ with ⟨hin, rfl⟩ | ⟨hout, p₁, hp₁, hd₁, rfl⟩ <;>
    rcases h₂ with ⟨hin₂, rfl⟩ | ⟨hout₂, p₂, hp₂, hd₂, rfl⟩
  · rfl
  · exact absurd hin hout₂
  · exact absurd hin₂ hout
  · rw [isProj_unique pts (toPt q) p₁ p₂ hp₁ hp₂]

theorem getColor_points {s : ColorPaletteSpace} {q out : RGB} {s' : ColorPaletteSpace}
    (h : GetColor s q out s') : s'.points = s.points := by
  cases h <;> rfl

theorem getColor_resolve {s : ColorPaletteSpace} {q out : RGB} {s' : ColorPaletteSpace}
    (hok : CacheOK s) (h : GetColor s q out s') : ResolveRel s.points q out := by
  cases h with
  | hit =>
    rename_i hv
    exact hok q out hv
  | miss =>
    rename_i res hnone hres hout
    cases res with
    | Intersecting =>
      simp only [closestToColor, Option.some.injEq] at hout
      exact Or.inl ⟨hres, hout.symm⟩
    | WithinMargin p =>
      simp only [closestToColor, Option.some.injEq] at hout
      exact Or.inr ⟨hres.1, p, hres.2.1, hres.2.2, hout.symm⟩
    | Disjoint => cases hout

theorem getColor_cache_lookup {s : ColorPaletteSpace} {q out : RGB} {s' : ColorPaletteSpace}
    (h : GetColor s q out s') : cacheLookup s'.cache q = some out := by
  cases h with
  | hit =>
    rename_i hv
    exact hv
  | miss => simp [cacheLookup]

theorem cacheOK_preserved {s : ColorPaletteSpace} {q out : RGB} {s' : ColorPaletteSpace}
    (hok : CacheOK s) (h : GetColor s q out s') : CacheOK s' := by
  have hres := getColor_resolve hok h
  cases h with
  | hit => exact hok
  | miss =>
    intro k v hkv
    simp only [cacheLookup] at hkv
    by_cases hqk : q = k
    · rw [if_pos hqk] at hkv
      cases hkv
      exact hqk ▸ hres
    · rw [if_neg hqk] at hkv
      exact hok k v hkv

theorem getColor_lookup_preserved {s : ColorPaletteSpace} {r o : RGB} {t : ColorPaletteSpace}
    {q out : RGB} (h : GetColor s r o t) (hq : cacheLookup s.cache q = some out) :
    cacheLookup t.cache q = some out := by
  cases h with
  | hit => exact hq
  | miss =>
    rename_i res hnone hres hout
    simp only [cacheLookup]
    by_cases hrq : r = q
    · subst hrq
      rw [hq] at hnone
      cases hnone
    · rw [if_neg hrq]
      exact hq

theorem getColor_det {s : ColorPaletteSpace} {q o₁ o₂ : RGB} {s₁ s₂ : ColorPaletteSpace}
    (h₁ : GetColor s q o₁ s₁) (h₂ : GetColor s q o₂ s₂) : o₁ = o₂ ∧ s₁ = s₂ := by
  cases h₁ with
  | hit =>
    rename_i hv
    cases h₂ with
    | hit =>
      rename_i hv'
      rw [hv] at hv'
      cases hv'
      exact ⟨rfl, rfl⟩
    | miss =>
      rename_i res hnone hres hout
      rw [hv] at hnone
      cases hnone
  | miss =>
    rename_i res hnone hres hout
    cases h₂ with
    | hit =>
      rename_i hv
      rw [hv] at hnone
      cases hnone
    | miss =>
      rename_i res' hnone' hres' hout'
      have heq : o₁ = o₂ := by
        cases res with
        | Intersecting =>
          cases res' with
          | Intersecting =>
            simp only [closestToColor, Option.some.injEq] at hout hout'
            rw [← hout, ← hout']
          | WithinMargin p => exact absurd hres hres'.1
          | Disjoint => exact absurd hres hres'.1
        | WithinMargin p =>
          cases res' with
          | Intersecting => exact absurd hres' hres.1
          | WithinMargin p' =>
            simp only [closestToColor, Option.some.injEq] at hout hout'
            rw [← hout, ← hout', isProj_unique _ _ _ _ hres.2.1 hres'.2.1]
          | Disjoint => cases hout'
        | Disjoint => cases hout
      exact ⟨heq, by rw [heq]⟩

/-! ## Structural lemmas: bulk pixel mapping -/

theorem mapImage_forall₂ :
    ∀ {s : ColorPaletteSpace} {l outs : List RGB} {s' : ColorPaletteSpace},
      MapImage s l outs s' → CacheOK s →
      List.Forall₂ (ResolveRel s.points) l outs ∧ CacheOK s' ∧ s'.points = s.points := by
  intro s l outs s' h
  induction h with
  | nil => exact fun hok => ⟨List.Forall₂.nil, hok, rfl⟩
  | @cons s s₁ s₂ q o qs os hg hrest ih =>
    intro hok
    have h1 := getColor_resolve hok hg
    have h2 := cacheOK_preserved hok hg
    have hpts := getColor_points hg
    obtain ⟨hf, hok2, hpts2⟩ := ih h2
    rw [hpts] at hf
    exact ⟨List.Forall₂.cons h1 hf, hok2, by rw [hpts2, hpts]⟩

theorem forall₂_det {R : RGB → RGB → Prop}
    (hdet : ∀ a b₁ b₂, R a b₁ → R a b₂ → b₁ = b₂) :
    ∀ {l o₁ o₂ : List RGB}, List.Forall₂ R l o₁ → List.Forall₂ R l o₂ → o₁ = o₂ := by
  intro l o₁ o₂ h₁
  induction h₁ generalizing o₂ with
  | nil => intro h₂; cases h₂; rfl
  | cons hr hrest ih =>
    intro h₂
    cases h₂ with
    | cons hr' hrest' => rw [hdet _ _ _ hr hr', ih hrest']

theorem chunkedRun_forall₂ (pts : List RGB) :
    ∀ {chunks outs : List (List RGB)}, ChunkedRun pts chunks outs →
      List.Forall₂ (ResolveRel pts) chunks.flatten outs.flatten := by
  intro chunks outs h
  induction h with
  | nil => exact List.Forall₂.nil
  | cons hco hrest ih =>
    obtain ⟨t, t', hok, hpts, hmap⟩ := hco
    have hf := (mapImage_forall₂ hmap hok).1
    rw [hpts] at hf
    simp only [List.flatten_cons]
    exact List.rel_append hf ih

/-! ## Totality of `get_color` and unreachability of `Disjoint` -/

theorem validRGB_box (c : RGB) (h : validRGB c) :
    (0 ≤ (toPt c).1 ∧ (toPt c).1 ≤ 255) ∧ (0 ≤ (toPt c).2.1 ∧ (toPt c).2.1 ≤ 255) ∧
      (0 ≤ (toPt c).2.2 ∧ (toPt c).2.2 ≤ 255) := by
  obtain ⟨h1, h2, h3⟩ := h
  simp only [toPt]
  refine ⟨⟨by positivity, ?_⟩, ⟨by positivity, ?_⟩, ⟨by positivity, ?_⟩⟩ <;>
    exact_mod_cast Nat.cast_le.mpr (by assumption)

/-- With a nonempty palette inside the RGB cube, the `Disjoint` outcome is
impossible for queries in the cube: the margin exceeds the cube diagonal. -/
theorem closest_not_disjoint (pts : List RGB) (q : RGB) (hne : pts ≠ [])
    (hval : ∀ c ∈ pts, validRGB c) (hq : validRGB q) :
    ¬ ClosestPointsRel pts (toPt q) margin .Disjoint := by
  rintro ⟨hnin, hall⟩
  obtain ⟨z₀, hz₀⟩ := List.exists_mem_of_ne_nil pts hne
  have hfar := hall (toPt z₀) (inHull_mem pts z₀ hz₀)
  have hbound : distSq (toPt q) (toPt z₀) ≤ 195075 :=
    distSq_box_le _ _ (validRGB_box q hq) (validRGB_box z₀ (hval z₀ hz₀))
  have hm : margin ^ 2 = 9999800001 := by norm_num [margin]
  rw [hm] at hfar
  linarith

/-- `get_color` always produces a result: the cache hit, the inside case,
or the closest point (which exists and is within the margin). -/
theorem getColor_total (s : ColorPaletteSpace) (q : RGB) (hne : s.points ≠ [])
    (hval : ∀ c ∈ s.points, validRGB c) (hq : validRGB q) :
    ∃ out s', GetColor s q out s' := by
  cases hl : cacheLookup s.cache q with
  | some v => exact ⟨v, s, GetColor.hit v hl⟩
  | none =>
    by_cases hin : inHull s.points (toPt q)
    · exact ⟨q, _, GetColor.miss .Intersecting q hl hin rfl⟩
    · obtain ⟨p, hp⟩ := exists_isProj s.points hne (toPt q)
      obtain ⟨z₀, hz₀⟩ := List.exists_mem_of_ne_nil s.points hne
      have hd : distSq (toPt q) p ≤ distSq (toPt q) (toPt z₀) :=
        hp.2 _ (inHull_mem s.points z₀ hz₀)
      have hbound : distSq (toPt q) (toPt z₀) ≤ 195075 :=
        distSq_box_le _ _ (validRGB_box q hq) (validRGB_box z₀ (hval z₀ hz₀))
      have hm : distSq (toPt q) p ≤ margin ^ 2 := by
        have : margin ^ 2 = 9999800001 := by norm_num [margin]
        linarith
      exact ⟨truncPt p, _, GetColor.miss (.WithinMargin p) (truncPt p) hl ⟨hin, hp, hm⟩ rfl⟩

/-! ## Convex combinations given as weight lists -/

theorem combo_aux :
    ∀ (pts : List RGB) (ws : List ℝ), ws.length = pts.length →
      ∃ w : Fin pts.length → ℝ,
        (∀ i, w i ∈ ws) ∧ (∑ i, w i) = ws.sum ∧
          (∑ i, w i • toPt (pts.get i)) =
            (List.zipWith (fun r c => r • toPt c) ws pts).sum := by
  intro pts
  induction pts with
  | nil =>
    intro ws hlen
    refine ⟨fun i => i.elim0, fun i => i.elim0, ?_, ?_⟩
    · cases ws with
      | nil => simp
      | cons r rs => simp at hlen
    · cases ws with
      | nil => simp
      | cons r rs => simp at hlen
  | cons c pts' ih =>
    intro ws hlen
    cases ws with
    | nil => simp at hlen
    | cons r ws' =>
      simp only [List.length_cons, Nat.succ.injEq] at hlen
      obtain ⟨w', hmem', hsum', hvec'⟩ := ih ws' hlen
      refine ⟨Fin.cons r w', ?_, ?_, ?_⟩
      · intro i
        refine Fin.cases ?_ ?_ i
        · simp [Fin.cons_zero]
        · intro j
          simp only [Fin.cons_succ]
          exact List.mem_cons_of_mem _ (hmem' j)
      · simp only [List.length_cons]
        rw [Fin.sum_cons, List.sum_cons, hsum']
      · simp only [List.length_cons]
        rw [Fin.sum_univ_succ, List.zipWith_cons_cons, List.sum_cons]
        simp only [Fin.cons_zero, Fin.cons_succ, List.get_cons_zero, List.get_cons_succ]
        have hg : ∀ x : Fin pts'.length, (c :: pts').get x.succ = pts'.get x := fun x => rfl
        simp only [hg]
        rw [hvec']

/-- Hull membership from an explicit list of convex weights. -/
theorem inHull_of_combo (pts : List RGB) (ws : List ℝ) (p : Pt)
    (hlen : ws.length = pts.length) (h0 : ∀ r ∈ ws, 0 ≤ r) (h1 : ws.sum = 1)
    (hp : (List.zipWith (fun r c => r • toPt c) ws pts).sum = p) : inHull pts p := by
  obtain ⟨w, hmem, hsum, hvec⟩ := combo_aux pts ws hlen
  exact ⟨w, fun i => h0 _ (hmem i), by rw [hsum, h1], by rw [hvec, hp]⟩

/-- Evaluate `toU8` on a value known to lie in `[n, n+1)` for `n ≤ 255`. -/
theorem toU8_eval (x : ℝ) (n : ℕ) (hub : n ≤ 255) (h1 : (n : ℝ) ≤ x)
    (h2 : x < n + 1) : toU8 x = n := by
  have hfl : ⌊x⌋ = (n : ℤ) := by
    rw [Int.floor_eq_iff]
    constructor
    · exact_mod_cast h1
    · push_cast
      linarith
  simp only [toU8, hfl, Int.toNat_natCast]
  omega

/-! ## Concrete evaluations: the NORD palette and the `ex6` prism palette -/

theorem new_NORD : new NORD = .ok nordSpace := by decide

theorem new_ex6 : new ex6Hex = .ok ex6Space := by decide

theorem ex6_sep (c : RGB) (hc : c ∈ ex6Pts) : dot ((5 : ℝ), -4, 0) (toPt c) ≤ 10 := by
  fin_cases hc <;> norm_num [dot, toPt]

theorem ex6_notin_q1 : ¬ inHull ex6Pts (toPt (4, 1, 5)) :=
  not_inHull_of_sep _ _ ((5 : ℝ), -4, 0) 10 ex6_sep (by norm_num [dot, toPt])

theorem ex6_notin_q2 : ¬ inHull ex6Pts (toPt (3, 1, 5)) :=
  not_inHull_of_sep _ _ ((5 : ℝ), -4, 0) 10 ex6_sep (by norm_num [dot, toPt])

theorem ex6_mem_p1 : inHull ex6Pts ((134 / 41 : ℝ), (65 / 41 : ℝ), (5 : ℝ)) := by
  apply inHull_of_combo ex6Pts [0, 69 / 164, 13 / 164, 0, 69 / 164, 13 / 164]
  · rfl
  · intro r hr
    fin_cases hr <;> norm_num
  · simp [List.sum_cons, List.sum_nil]
    norm_num
  · simp only [ex6Pts, List.zipWith, List.sum_cons, List.sum_nil, toPt, Prod.smul_mk,
      smul_eq_mul, Prod.mk_add_mk, Prod.mk.injEq]
    norm_num

theorem ex6_mem_p2 : inHull ex6Pts ((118 / 41 : ℝ), (45 / 41 : ℝ), (5 : ℝ)) := by
  apply inHull_of_combo ex6Pts [0, 73 / 164, 9 / 164, 0, 73 / 164, 9 / 164]
  · rfl
  · intro r hr
    fin_cases hr <;> norm_num
  · simp [List.sum_cons, List.sum_nil]
    norm_num
  · simp only [ex6Pts, List.zipWith, List.sum_cons, List.sum_nil, toPt, Prod.smul_mk,
      smul_eq_mul, Prod.mk_add_mk, Prod.mk.injEq]
    norm_num

theorem ex6_proj_q1 :
    IsProj ex6Pts (toPt (4, 1, 5)) ((134 / 41 : ℝ), (65 / 41 : ℝ), (5 : ℝ)) := by
  apply isProj_of_cert _ _ _ ex6_mem_p1
  intro c hc
  fin_cases hc <;> norm_num [dot, toPt, Prod.mk_sub_mk]

theorem ex6_proj_q2 :
    IsProj ex6Pts (toPt (3, 1, 5)) ((118 / 41 : ℝ), (45 / 41 : ℝ), (5 : ℝ)) := by
  apply isProj_of_cert _ _ _ ex6_mem_p2
  intro c hc
  fin_cases hc <;> norm_num [dot, toPt, Prod.mk_sub_mk]

theorem ex6_trunc_p1 : truncPt ((134 / 41 : ℝ), (65 / 41 : ℝ), (5 : ℝ)) = (3, 1, 5) := by
  have e1 : toU8 ((134 : ℝ) / 41) = 3 := toU8_eval _ 3 (by norm_num) (by norm_num) (by norm_num)
  have e2 : toU8 ((65 : ℝ) / 41) = 1 := toU8_eval _ 1 (by norm_num) (by norm_num) (by norm_num)
  have e3 : toU8 ((5 : ℝ)) = 5 := toU8_eval _ 5 (by norm_num) (by norm_num) (by norm_num)
  simp [truncPt, e1, e2, e3]

theorem ex6_trunc_p2 : truncPt ((118 / 41 : ℝ), (45 / 41 : ℝ), (5 : ℝ)) = (2, 1, 5) := by
  have e1 : toU8 ((118 : ℝ) / 41) = 2 := toU8_eval _ 2 (by norm_num) (by norm_num) (by norm_num)
  have e2 : toU8 ((45 : ℝ) / 41) = 1 := toU8_eval _ 1 (by norm_num) (by norm_num) (by norm_num)
  have e3 : toU8 ((5 : ℝ)) = 5 := toU8_eval _ 5 (by norm_num) (by norm_num) (by norm_num)
  simp [truncPt, e1, e2, e3]

theorem ex6_rel_q1 :
    ClosestPointsRel ex6Pts (toPt (4, 1, 5)) margin
      (.WithinMargin ((134 / 41 : ℝ), (65 / 41 : ℝ), (5 : ℝ))) :=
  ⟨ex6_notin_q1, ex6_proj_q1, by norm_num [distSq, toPt, margin]⟩

theorem ex6_rel_q2 :
    ClosestPointsRel ex6Pts (toPt (3, 1, 5)) margin
      (.WithinMargin ((118 / 41 : ℝ), (45 / 41 : ℝ), (5 : ℝ))) :=
  ⟨ex6_notin_q2, ex6_proj_q2, by norm_num [distSq, toPt, margin]⟩

theorem ex6_get1 : GetColor ex6Space (4, 1, 5) (3, 1, 5) ex6Space1 := by
  have h := GetColor.miss (s := ex6Space) (q := (4, 1, 5))
    (.WithinMargin ((134 / 41 : ℝ), (65 / 41 : ℝ), (5 : ℝ))) (3, 1, 5) rfl ex6_rel_q1
    (by simp [closestToColor, ex6_trunc_p1])
  exact h

theorem ex6_get2 : GetColor ex6Space1 (3, 1, 5) (2, 1, 5) ex6Space2 := by
  have h := GetColor.miss (s := ex6Space1) (q := (3, 1, 5))
    (.WithinMargin ((118 / 41 : ℝ), (45 / 41 : ℝ), (5 : ℝ))) (2, 1, 5) (by decide) ex6_rel_q2
    (by simp [closestToColor, ex6_trunc_p2])
  exact h

theorem nord_get0 :
    GetColor nordSpace (46, 52, 64) (46, 52, 64) ⟨nordPts, [((46, 52, 64), (46, 52, 64))]⟩ :=
  GetColor.miss .Intersecting (46, 52, 64) rfl
    (inHull_mem nordPts (46, 52, 64) (by decide)) rfl

theorem ex6_get_vertex :
    GetColor ex6Space (2, 0, 0) (2, 0, 0) ⟨ex6Pts, [((2, 0, 0), (2, 0, 0))]⟩ :=
  GetColor.miss .Intersecting (2, 0, 0) rfl
    (inHull_mem ex6Pts (2, 0, 0) (by decide)) rfl

/-! ## Claim theorems -/

/-- Auxiliary: integer conversion moves a coordinate in `[0, 255]` by at
most one unit. -/
theorem toU8_close (x : ℝ) (h0 : 0 ≤ x) (h255 : x ≤ 255) : |(toU8 x : ℝ) - x| ≤ 1 := by
  have hfl0 : 0 ≤ ⌊x⌋ := Int.floor_nonneg.mpr h0
  have hfl255 : ⌊x⌋ ≤ 255 := by
    have h1 : (⌊x⌋ : ℝ) ≤ 255 := (Int.floor_le x).trans h255
    exact_mod_cast h1
  have hmin : toU8 x = ⌊x⌋.toNat := by
    simp only [toU8]
    omega
  rw [hmin]
  have hcast : ((⌊x⌋.toNat : ℕ) : ℝ) = ((⌊x⌋ : ℤ) : ℝ) := by
    exact_mod_cast congrArg (Int.cast : ℤ → ℝ) (Int.toNat_of_nonneg hfl0)
  rw [hcast, abs_le]
  constructor
  · linarith [Int.sub_one_lt_floor x]
  · linarith [Int.floor_le x]

/-- C1: for every query, the color returned by `get_color` lies within one
unit per channel of a point of the convex region spanned by the palette
(tolerance coming only from the integer conversion). -/
theorem c1_containment (s : ColorPaletteSpace) (q out : RGB) (s' : ColorPaletteSpace)
    (hok : CacheOK s) (hval : ∀ c ∈ s.points, validRGB c) (h : GetColor s q out s') :
    ∃ z : Pt, inHull s.points z ∧
      |(toPt out).1 - z.1| ≤ 1 ∧ |(toPt out).2.1 - z.2.1| ≤ 1 ∧
        |(toPt out).2.2 - z.2.2| ≤ 1 := by
  rcases getColor_resolve hok h with ⟨hin, rfl⟩ | ⟨hnin, p, hp, hd, rfl⟩
  · exact ⟨toPt out, hin, by norm_num, by norm_num, by norm_num⟩
  · have hbox := inHull_box s.points hval p hp.1
    refine ⟨p, hp.1, ?_, ?_, ?_⟩
    · simpa [toPt, truncPt] using toU8_close p.1 hbox.1.1 hbox.1.2
    · simpa [toPt, truncPt] using toU8_close p.2.1 hbox.2.1.1 hbox.2.1.2
    · simpa [toPt, truncPt] using toU8_close p.2.2 hbox.2.2.1 hbox.2.2.2

/-- Witness for C1 at the NORD palette and the first NORD color. -/
theorem c1_containment_witness :
    CacheOK nordSpace ∧ (∀ c ∈ nordSpace.points, validRGB c) ∧
      GetColor nordSpace (46, 52, 64) (46, 52, 64)
        ⟨nordPts, [((46, 52, 64), (46, 52, 64))]⟩ ∧
      ∃ z : Pt, inHull nordSpace.points z ∧
        |(toPt (46, 52, 64)).1 - z.1| ≤ 1 ∧ |(toPt (46, 52, 64)).2.1 - z.2.1| ≤ 1 ∧
          |(toPt (46, 52, 64)).2.2 - z.2.2| ≤ 1 :=
  ⟨cacheOK_new _ _ new_NORD, by decide, nord_get0,
    c1_containment _ _ _ _ (cacheOK_new _ _ new_NORD) (by decide) nord_get0⟩

/-- C2: a query already inside (or on) the convex region is returned
unchanged. -/
theorem c2_identity_on_region (s : ColorPaletteSpace) (q out : RGB)
    (s' : ColorPaletteSpace) (hok : CacheOK s) (hin : inHull s.points (toPt q))
    (h : GetColor s q out s') : out = q := by
  rcases getColor_resolve hok h with ⟨_, rfl⟩ | ⟨hnin, _⟩
  · rfl
  · exact absurd hin hnin

/-- Witness for C2 at the NORD palette and the first NORD color. -/
theorem c2_identity_on_region_witness :
    CacheOK nordSpace ∧ inHull nordSpace.points (toPt (46, 52, 64)) ∧
      GetColor nordSpace (46, 52, 64) (46, 52, 64)
        ⟨nordPts, [((46, 52, 64), (46, 52, 64))]⟩ ∧
      ((46, 52, 64) : RGB) = (46, 52, 64) :=
  ⟨cacheOK_new _ _ new_NORD, inHull_mem nordPts _ (by decide), nord_get0,
    c2_identity_on_region _ _ _ _ (cacheOK_new _ _ new_NORD)
      (inHull_mem nordPts _ (by decide)) nord_get0⟩

/-- C3 counterexample: `get_color` is not idempotent.  On the `ex6Hex`
palette the query `(4,1,5)` resolves to `(3,1,5)` (truncation of the
closest hull point `(134/41, 65/41, 5)`), which is itself outside the hull
and resolves further to `(2,1,5)`. -/
theorem c3_idempotence_counterexample :
    ¬ (∀ (s : ColorPaletteSpace) (q o₁ : RGB) (s₁ : ColorPaletteSpace) (o₂ : RGB)
          (s₂ : ColorPaletteSpace),
        new ex6Hex = .ok s → GetColor s q o₁ s₁ → GetColor s₁ o₁ o₂ s₂ → o₂ = o₁) := by
  intro h
  have heq := h ex6Space (4, 1, 5) (3, 1, 5) ex6Space1 (2, 1, 5) ex6Space2
    new_ex6 ex6_get1 ex6_get2
  exact absurd heq (by decide)

/-- C3 amended: `get_color` is idempotent on every query whose first result
lands inside the convex region — in particular on all queries inside the
region; truncation can move the projected point outside the region, where
idempotence can fail (see the counterexample). -/
theorem c3_idempotence_amended (s : ColorPaletteSpace) (q o₁ : RGB)
    (s₁ : ColorPaletteSpace) (o₂ : RGB) (s₂ : ColorPaletteSpace) (hok : CacheOK s)
    (h₁ : GetColor s q o₁ s₁) (hin : inHull s.points (toPt o₁))
    (h₂ : GetColor s₁ o₁ o₂ s₂) : o₂ = o₁ := by
  have hok₁ := cacheOK_preserved hok h₁
  have hres := getColor_resolve hok₁ h₂
  rw [getColor_points h₁] at hres
  rcases hres with ⟨_, rfl⟩ | ⟨hnin, _⟩
  · rfl
  · exact absurd hin hnin

/-- Witness for the amended C3 at an `ex6` palette vertex. -/
theorem c3_idempotence_amended_witness :
    CacheOK ex6Space ∧
      GetColor ex6Space (2, 0, 0) (2, 0, 0) ⟨ex6Pts, [((2, 0, 0), (2, 0, 0))]⟩ ∧
      inHull ex6Space.points (toPt (2, 0, 0)) ∧
      GetColor ⟨ex6Pts, [((2, 0, 0), (2, 0, 0))]⟩ (2, 0, 0) (2, 0, 0)
        ⟨ex6Pts, [((2, 0, 0), (2, 0, 0))]⟩ ∧
      ((2, 0, 0) : RGB) = (2, 0, 0) :=
  ⟨cacheOK_new _ _ new_ex6, ex6_get_vertex, inHull_mem ex6Pts _ (by decide),
    GetColor.hit (2, 0, 0) (by decide),
    c3_idempotence_amended _ _ _ _ _ _ (cacheOK_new _ _ new_ex6) ex6_get_vertex
      (inHull_mem ex6Pts _ (by decide)) (GetColor.hit (2, 0, 0) (by decide))⟩

/-- C4: on any successfully constructed palette space, `get_color` of any
`u8` query always produces a result, and the `Disjoint` outcome (the
`panic!()` arm) is impossible: the margin 99999 exceeds the RGB cube's
diagonal. -/
theorem c4_totality (palette : List String) (s : ColorPaletteSpace) (q : RGB)
    (hnew : new palette = .ok s) (hq : validRGB q) :
    (¬ ClosestPointsRel s.points (toPt q) margin .Disjoint) ∧
      ∃ out s', GetColor s q out s' := by
  obtain ⟨hparse, hdeg, _⟩ := new_ok_elim palette s hnew
  have hval : ∀ c ∈ s.points, validRGB c := parseList_valid _ _ hparse
  have hlen := length_of_not_degenerate hdeg
  have hne : s.points ≠ [] := by
    intro hnil
    rw [hnil] at hlen
    simp at hlen
  exact ⟨closest_not_disjoint s.points q hne hval hq, getColor_total s q hne hval hq⟩

/-- Witness for C4 at the NORD palette and the query `(0,0,0)`. -/
theorem c4_totality_witness :
    new NORD = .ok nordSpace ∧ validRGB (0, 0, 0) ∧
      ((¬ ClosestPointsRel nordSpace.points (toPt (0, 0, 0)) margin .Disjoint) ∧
        ∃ out s', GetColor nordSpace (0, 0, 0) out s') :=
  ⟨new_NORD, by decide, c4_totality NORD nordSpace (0, 0, 0) new_NORD (by decide)⟩

/-- C5: construction succeeds on the 16-entry NORD palette; whenever a
well-formed palette has fewer than four points or is coplanar, construction
fails with the returned error value `ConvexHullError`. -/
theorem c5_construction :
    new NORD = .ok nordSpace ∧
      ∀ (l : List String) (pts : List RGB), parseList l = .ok pts →
        (pts.length < 4 ∨ Coplanar pts) → new l = .error .ConvexHullError := by
  refine ⟨new_NORD, ?_⟩
  intro l pts hp hcase
  have hdeg : degenerate pts = true := by
    rcases hcase with hlen | hcop
    · exact degenerate_of_short hlen
    · exact degenerate_of_coplanar pts hcop
  simp [new, hp, hdeg]

/-- Witness for C5: a two-color palette and a four-point coplanar palette
are both rejected with `ConvexHullError`. -/
theorem c5_construction_witness :
    new ["#000000", "#FF0000"] = .error .ConvexHullError ∧
      new ["#000000", "#010000", "#000100", "#010100"] = .error .ConvexHullError :=
  ⟨c5_construction.2 _ [(0, 0, 0), (255, 0, 0)] (by decide) (Or.inl (by decide)),
    c5_construction.2 _ [(0, 0, 0), (1, 0, 0), (0, 1, 0), (1, 1, 0)] (by decide)
      (Or.inr ⟨((0 : ℝ), 0, 1), by simp [Prod.ext_iff], 0, by
        intro c hc
        fin_cases hc <;> norm_num [dot, toPt]⟩)⟩

/-- C6: after any call, the result is cached under the query; the value is
exactly what the geometric resolution produces; the invariant is preserved;
any later call on the same query returns the stored value with the state
untouched, and the stored entry survives later calls on other queries. -/
theorem c6_cache_consistency (s : ColorPaletteSpace) (q out : RGB)
    (s' : ColorPaletteSpace) (hok : CacheOK s) (h : GetColor s q out s') :
    ResolveRel s.points q out ∧ cacheLookup s'.cache q = some out ∧ CacheOK s' ∧
      (∀ out₂ s'', GetColor s' q out₂ s'' → out₂ = out ∧ s'' = s') ∧
      ∀ r o t, GetColor s' r o t → cacheLookup t.cache q = some out := by
  have h1 := getColor_resolve hok h
  have h2 := getColor_cache_lookup h
  have h3 := cacheOK_preserved hok h
  refine ⟨h1, h2, h3, ?_, ?_⟩
  · intro out₂ s'' h''
    cases h'' with
    | hit =>
      rename_i hv
      rw [h2] at hv
      cases hv
      exact ⟨rfl, rfl⟩
    | miss =>
      rename_i res hnone hres hout
      rw [h2] at hnone
      cases hnone
  · intro r o t ht
    exact getColor_lookup_preserved ht h2

/-- Witness for C6 at an `ex6` palette vertex. -/
theorem c6_cache_consistency_witness :
    CacheOK ex6Space ∧
      GetColor ex6Space (2, 0, 0) (2, 0, 0) ⟨ex6Pts, [((2, 0, 0), (2, 0, 0))]⟩ ∧
      (ResolveRel ex6Space.points (2, 0, 0) (2, 0, 0) ∧
        cacheLookup (⟨ex6Pts, [((2, 0, 0), (2, 0, 0))]⟩ : ColorPaletteSpace).cache (2, 0, 0) =
          some ((2, 0, 0) : RGB) ∧
        CacheOK ⟨ex6Pts, [((2, 0, 0), (2, 0, 0))]⟩ ∧
        (∀ out₂ s'', GetColor ⟨ex6Pts, [((2, 0, 0), (2, 0, 0))]⟩ (2, 0, 0) out₂ s'' →
          out₂ = (2, 0, 0) ∧ s'' = ⟨ex6Pts, [((2, 0, 0), (2, 0, 0))]⟩) ∧
        ∀ r o t, GetColor ⟨ex6Pts, [((2, 0, 0), (2, 0, 0))]⟩ r o t →
          cacheLookup t.cache (2, 0, 0) = some (2, 0, 0)) :=
  ⟨cacheOK_new _ _ new_ex6, ex6_get_vertex,
    c6_cache_consistency ex6Space (2, 0, 0) (2, 0, 0) ⟨ex6Pts, [((2, 0, 0), (2, 0, 0))]⟩
      (cacheOK_new _ _ new_ex6) ex6_get_vertex⟩

/-- C7: the pixel mapping preserves the buffer length, resolves each pixel
independently of the shared cache state (output pixel `i` is the resolution
of input pixel `i`), and any partition of the pixels into chunks processed
by workers over the same palette yields the same output buffer. -/
theorem c7_bulk_mapping (s : ColorPaletteSpace) (pixels outs : List RGB)
    (s' : ColorPaletteSpace) (hok : CacheOK s) (h : MapImage s pixels outs s') :
    outs.length = pixels.length ∧
      (∀ (i : ℕ) (hi : i < pixels.length) (hi' : i < outs.length),
        ResolveRel s.points (pixels.get ⟨i, hi⟩) (outs.get ⟨i, hi'⟩)) ∧
      ∀ chunks couts, chunks.flatten = pixels → ChunkedRun s.points chunks couts →
        couts.flatten = outs := by
  obtain ⟨hf, _, _⟩ := mapImage_forall₂ h hok
  refine ⟨hf.length_eq.symm, ?_, ?_⟩
  · intro i hi hi'
    exact (List.forall₂_iff_get.mp hf).2 i hi hi'
  · intro chunks couts hjoin hrun
    have hcf := chunkedRun_forall₂ s.points hrun
    rw [hjoin] at hcf
    exact forall₂_det (resolveRel_det s.points) hcf hf

/-- Witness for C7 on a two-pixel buffer over the `ex6` palette. -/
theorem c7_bulk_mapping_witness :
    CacheOK ex6Space ∧
      MapImage ex6Space [(2, 0, 0), (2, 0, 0)] [(2, 0, 0), (2, 0, 0)]
        ⟨ex6Pts, [((2, 0, 0), (2, 0, 0))]⟩ ∧
      ([(2, 0, 0), (2, 0, 0)] : List RGB).length = 2 :=
  ⟨cacheOK_new _ _ new_ex6,
    MapImage.cons ex6_get_vertex
      (MapImage.cons
        (GetColor.hit (s := ⟨ex6Pts, [((2, 0, 0), (2, 0, 0))]⟩) (q := (2, 0, 0))
          (2, 0, 0) (by decide))
        (MapImage.nil _)),
    (c7_bulk_mapping _ _ _ _ (cacheOK_new _ _ new_ex6)
      (MapImage.cons ex6_get_vertex
        (MapImage.cons
          (GetColor.hit (s := ⟨ex6Pts, [((2, 0, 0), (2, 0, 0))]⟩) (q := (2, 0, 0))
            (2, 0, 0) (by decide))
          (MapImage.nil _)))).1⟩

/-- C8: on a cache miss with the query outside the region, the returned
color is the per-channel truncation toward zero (saturating `as u8` cast)
of the closest hull point's coordinates — and this conversion differs from
rounding to nearest (`toU8 (3/2) = 1` while `roundU8 (3/2) = 2`). -/
theorem c8_truncation (s : ColorPaletteSpace) (q out : RGB) (s' : ColorPaletteSpace)
    (h : GetColor s q out s') (hnone : cacheLookup s.cache q = none)
    (hq : ¬ inHull s.points (toPt q)) :
    (∃ p, IsProj s.points (toPt q) p ∧
        out = (min 255 (Int.toNat ⌊p.1⌋), min 255 (Int.toNat ⌊p.2.1⌋),
          min 255 (Int.toNat ⌊p.2.2⌋))) ∧
      toU8 (3 / 2 : ℝ) = 1 ∧ roundU8 (3 / 2 : ℝ) = 2 := by
  refine ⟨?_, ?_, ?_⟩
  · cases h with
    | hit =>
      rename_i hv
      rw [hv] at hnone
      cases hnone
    | miss =>
      rename_i res hn hres hout
      cases res with
      | Intersecting => exact absurd hres hq
      | WithinMargin p =>
        simp only [closestToColor, Option.some.injEq] at hout
        exact ⟨p, hres.2.1, by rw [← hout]; rfl⟩
      | Disjoint => cases hout
  · exact toU8_eval _ 1 (by norm_num) (by norm_num) (by norm_num)
  · have hfl : ⌊(3 / 2 : ℝ) + 1 / 2⌋ = 2 := by
      rw [Int.floor_eq_iff]
      norm_num
    simp only [roundU8]
    rw [hfl]
    decide

/-- Witness for C8 at the outside query `(4,1,5)` over the `ex6` palette. -/
theorem c8_truncation_witness :
    GetColor ex6Space (4, 1, 5) (3, 1, 5) ex6Space1 ∧
      cacheLookup ex6Space.cache (4, 1, 5) = none ∧
      (¬ inHull ex6Space.points (toPt (4, 1, 5))) ∧
      ((∃ p, IsProj ex6Space.points (toPt (4, 1, 5)) p ∧
          ((3, 1, 5) : RGB) = (min 255 (Int.toNat ⌊p.1⌋), min 255 (Int.toNat ⌊p.2.1⌋),
            min 255 (Int.toNat ⌊p.2.2⌋))) ∧
        toU8 (3 / 2 : ℝ) = 1 ∧ roundU8 (3 / 2 : ℝ) = 2) :=
  ⟨ex6_get1, rfl, ex6_notin_q1, c8_truncation _ _ _ _ ex6_get1 rfl ex6_notin_q1⟩

/-- C9: every palette point used to construct the space is a fixed point of
`get_color`. -/
theorem c9_fixed_points (palette : List String) (s : ColorPaletteSpace) (q out : RGB)
    (s' : ColorPaletteSpace) (hnew : new palette = .ok s) (hmem : q ∈ s.points)
    (h : GetColor s q out s') : out = q := by
  have hok := cacheOK_new palette s hnew
  rcases getColor_resolve hok h with ⟨_, rfl⟩ | ⟨hnin, _⟩
  · rfl
  · exact absurd (inHull_mem s.points q hmem) hnin

/-- Witness for C9 at the first NORD color. -/
theorem c9_fixed_points_witness :
    new NORD = .ok nordSpace ∧ ((46, 52, 64) : RGB) ∈ nordSpace.points ∧
      GetColor nordSpace (46, 52, 64) (46, 52, 64)
        ⟨nordPts, [((46, 52, 64), (46, 52, 64))]⟩ ∧
      ((46, 52, 64) : RGB) = (46, 52, 64) :=
  ⟨new_NORD, by decide, nord_get0,
    c9_fixed_points NORD nordSpace _ _ _ new_NORD (by decide) nord_get0⟩

/-- C10: hex decoding happens inside construction: if the palette contains
an entry that fails to decode, `new` returns `HexError` wrapping the error
of the first failing entry (all entries before it decode); and a successful
construction implies every entry decodes. -/
theorem c10_hex_errors :
    (∀ (pre : List String) (c : String) (post : List String) (e : FromHexError),
        (∀ c' ∈ pre, ∃ r, parseHex c' = .ok r) → parseHex c = .error e →
        new (pre ++ c :: post) = .error (.HexError e)) ∧
      ∀ (l : List String) (s : ColorPaletteSpace), new l = .ok s →
        ∀ c ∈ l, ∃ r, parseHex c = .ok r := by
  constructor
  · intro pre c post e hpre hc
    exact new_hexError _ e (parseList_first_error pre c post e hpre hc)
  · intro l s h c hc
    obtain ⟨hparse, _, _⟩ := new_ok_elim l s h
    exact parseList_ok_all l s.points hparse c hc

/-- Witness for C10: a palette whose second entry is malformed fails with
that entry's format error. -/
theorem c10_hex_errors_witness :
    new ["#2E3440", "zz"] = .error (.HexError .HexFormatError) :=
  c10_hex_errors.1 ["#2E3440"] "zz" [] .HexFormatError
    (by
      intro c' hc'
      fin_cases hc'
      exact ⟨(46, 52, 64), by decide⟩)
    (by decide)

end ColorPaletteTransfer
